import Mathlib

/-!
Verification of the `Coin` value type of `packages/std/src/coin.rs`:
the canonical text encoding (`impl fmt::Display for Coin`), the canonical
text decoding (`impl FromStr for Coin`), and the membership helper
`has_coins`.

Strings are embedded as `List Char` (Rust `&str` iterates unicode scalar
values; the split point found by `str::find` is always a char boundary,
so `split_at` agrees with the char-level split). Rust's
`char::is_ascii_digit` coincides with Lean's `Char.isDigit`
(both test whether the code point lies between those of 0 and 9). The
`u128` amount is embedded as a `Nat`; the range bound `< 2^128` is
enforced exactly where the Rust code enforces it, namely in the decimal
parse.
-/

namespace CoinSpec

/-- A coin: `pub struct Coin { pub denom: String, pub amount: Uint128 }`.
`Uint128` is a newtype over `u128`; its value is embedded as a `Nat`. -/
structure Coin where
  denom : List Char
  amount : Nat
  deriving DecidableEq, Repr

/-- Modelled from the spec: the decode error taxonomy of the error enum
`CoinFromStrError` (defined in the crate's `errors` module, which is not
among the given sources). `MissingDenom`: no non-digit character found.
`MissingAmount`: the digit run before the first non-digit is empty.
`InvalidAmount`: the numeric conversion failed; carries the underlying
numeric parse failure description. -/
inductive CoinFromStrError where
  | MissingDenom : CoinFromStrError
  | MissingAmount : CoinFromStrError
  | InvalidAmount : String → CoinFromStrError
  deriving DecidableEq, Repr

instance : DecidableEq (Except CoinFromStrError Coin) := fun a b =>
  match a, b with
  | Except.ok x, Except.ok y =>
    if h : x = y then isTrue (by rw [h])
    else isFalse (fun he => h (by injection he))
  | Except.error x, Except.error y =>
    if h : x = y then isTrue (by rw [h])
    else isFalse (fun he => h (by injection he))
  | Except.ok _, Except.error _ => isFalse (fun he => Except.noConfusion he)
  | Except.error _, Except.ok _ => isFalse (fun he => Except.noConfusion he)

/-- Decimal value of a run of ASCII digit characters (most significant
first), the standard positional reading: the digits 0,0,1,2,3 evaluate
to 123, so leading zeros are ignored. -/
def digitsToNat (l : List Char) : Nat :=
  l.foldl (fun acc c => 10 * acc + (c.toNat - 48)) 0

/-- The failure message of Rust's `u128` decimal parse on a value that
exceeds the range (`core::num::IntErrorKind::PosOverflow`). -/
def overflowMsg : String := "number too large to fit in target type"

/-- Modelled from the spec: Rust's `u128` decimal parsing
(`amount.parse::<u128>()`, from the standard library, not among the
given sources) as invoked by `Coin::from_str`, where the input is always
a non-empty run of ASCII digits: leading zeros are permitted and ignored,
and the parse succeeds iff the value fits in the target range
`[0, 2^128 - 1]`, failing otherwise with the numeric-conversion failure
reason. -/
def parseU128 (l : List Char) : Except String Nat :=
  let n := digitsToNat l
  if n < 2 ^ 128 then Except.ok n
  else Except.error overflowMsg

/-- Rust's `Coin::from_str`: find the position of the first character
that is not an ASCII digit (if none exists, fail with `MissingDenom`),
split the string there into `(amount, denom)`, fail with `MissingAmount`
if the amount part is empty, parse the amount part as `u128` (propagating
its failure), and build the coin. A first non-digit character exists iff
the suffix after the maximal digit run is non-empty, and the split at its
position is exactly `(takeWhile isDigit, dropWhile isDigit)`. -/
def from_str (s : List Char) : Except CoinFromStrError Coin :=
  let amount := s.takeWhile Char.isDigit
  let denom := s.dropWhile Char.isDigit
  if denom.isEmpty then Except.error CoinFromStrError.MissingDenom
  else if amount.isEmpty then Except.error CoinFromStrError.MissingAmount
  else
    match parseU128 amount with
    | Except.ok n => Except.ok { amount := n, denom := denom }
    | Except.error e => Except.error (CoinFromStrError.InvalidAmount e)

/-- Modelled from the spec: the decimal representation of a natural
number, most significant digit first — the digit characters produced for
the amount by `fmt::Display` for `u128` (standard library, not among the
given sources; `Uint128`'s `Display` prints the inner `u128` in decimal).
Digits are extracted by repeated division by 10; the fuel argument bounds
the recursion depth and any value of at least one more than the number of
digits yields the same result. -/
def natToDigitsAux : Nat → Nat → List Char → List Char
  | 0, _, acc => acc
  | fuel + 1, n, acc =>
    if n < 10 then Nat.digitChar n :: acc
    else natToDigitsAux fuel (n / 10) (Nat.digitChar (n % 10) :: acc)

/-- Decimal representation of `n`, most significant digit first; fuel
`n + 1` always suffices since a number has at most as many decimal digits
as its own magnitude. -/
def natToDigits (n : Nat) : List Char :=
  natToDigitsAux (n + 1) n []

/-- The canonical text encoding, `impl fmt::Display for Coin`: the
decimal representation of the amount immediately followed by the denom,
with no separator between them. Encoding is a total function: it never
fails. -/
def encode (c : Coin) : List Char :=
  natToDigits c.amount ++ c.denom

/-- Rust's `has_coins`: find the first coin in the list whose denom
equals the required denom; if one exists, return whether its amount is at
least the required amount, otherwise return false. -/
def has_coins (coins : List Coin) (required : Coin) : Bool :=
  match coins.find? (fun c => c.denom == required.denom) with
  | some m => required.amount ≤ m.amount
  | none => false

/-- Whether a string begins with an ASCII decimal digit (an empty string
has no first character, hence does not begin with a digit). -/
def beginsWithAsciiDigit : List Char → Bool
  | [] => false
  | c :: _ => c.isDigit

/-- Index of the first character that is not an ASCII digit: the length
of the maximal leading digit run (equal to the whole length when every
character is a digit). This is the split position `pos` found by
`s.find(|c: char| !c.is_ascii_digit())` in `Coin::from_str`. -/
def firstNonDigitPos (s : List Char) : Nat :=
  (s.takeWhile Char.isDigit).length

/-! Helper lemmas about the decimal digit machinery. -/

theorem isEmpty_false_of_ne_nil {l : List Char} (h : l ≠ []) : l.isEmpty = false := by
  cases l with
  | nil => exact absurd rfl h
  | cons c t => rfl

theorem digitsToNat_append_singleton (l : List Char) (c : Char) :
    digitsToNat (l ++ [c]) = 10 * digitsToNat l + (c.toNat - 48) := by
  simp [digitsToNat, List.foldl_append]

theorem digitChar_isDigit {n : Nat} (h : n < 10) : (Nat.digitChar n).isDigit = true := by
  interval_cases n <;> decide

theorem digitChar_toNat {n : Nat} (h : n < 10) : (Nat.digitChar n).toNat = 48 + n := by
  interval_cases n <;> decide

theorem digitChar_ne_zero {n : Nat} (h : n < 10) (h0 : n ≠ 0) : Nat.digitChar n ≠ '0' := by
  interval_cases n
  · exact absurd rfl h0
  all_goals decide

theorem natToDigitsAux_append : ∀ (fuel n : Nat) (acc : List Char),
    natToDigitsAux fuel n acc = natToDigitsAux fuel n [] ++ acc
  | 0, _, _ => rfl
  | fuel + 1, n, acc => by
    by_cases h : n < 10
    · simp [natToDigitsAux, h]
    · simp only [natToDigitsAux, if_neg h]
      rw [natToDigitsAux_append fuel (n / 10) (Nat.digitChar (n % 10) :: acc),
        natToDigitsAux_append fuel (n / 10) [Nat.digitChar (n % 10)]]
      simp

theorem natToDigitsAux_spec : ∀ (fuel n : Nat), n < 10 ^ fuel → 1 ≤ fuel →
    natToDigitsAux fuel n [] ≠ [] ∧
    (∀ c ∈ natToDigitsAux fuel n [], c.isDigit = true) ∧
    digitsToNat (natToDigitsAux fuel n []) = n
  | 0, _, _, hf => absurd hf (by omega)
  | fuel + 1, n, hlt, _ => by
    by_cases h : n < 10
    · refine ⟨by simp [natToDigitsAux, h], ?_, ?_⟩
      · intro c hc
        simp [natToDigitsAux, h] at hc
        subst hc
        exact digitChar_isDigit h
      · simp only [natToDigitsAux, if_pos h, digitsToNat, List.foldl_cons, List.foldl_nil]
        rw [digitChar_toNat h]
        omega
    · have hfuel : 1 ≤ fuel := by
        by_contra hf
        have hz : fuel = 0 := by omega
        subst hz
        simp [pow_succ, pow_zero] at hlt
        omega
      have hdiv : n / 10 < 10 ^ fuel := by
        rw [pow_succ] at hlt
        exact (Nat.div_lt_iff_lt_mul (by norm_num)).mpr hlt
      obtain ⟨hne, hdig, hval⟩ := natToDigitsAux_spec fuel (n / 10) hdiv hfuel
      simp only [natToDigitsAux, if_neg h]
      rw [natToDigitsAux_append]
      refine ⟨by simp, ?_, ?_⟩
      · intro c hc
        rcases List.mem_append.mp hc with hc1 | hc2
        · exact hdig c hc1
        · have hc2e : c = Nat.digitChar (n % 10) := by simpa using hc2
          subst hc2e
          exact digitChar_isDigit (Nat.mod_lt n (by norm_num))
      · rw [digitsToNat_append_singleton, hval, digitChar_toNat (Nat.mod_lt n (by norm_num))]
        omega

theorem natToDigitsAux_head_ne_zero : ∀ (fuel n : Nat), n < 10 ^ fuel → 1 ≤ fuel → n ≠ 0 →
    (natToDigitsAux fuel n []).head? ≠ some '0'
  | 0, _, _, hf, _ => absurd hf (by omega)
  | fuel + 1, n, hlt, _, h0 => by
    by_cases h : n < 10
    · simp only [natToDigitsAux, if_pos h, List.head?_cons]
      intro hcontra
      exact digitChar_ne_zero h h0 (by injection hcontra)
    · have hfuel : 1 ≤ fuel := by
        by_contra hf
        have hz : fuel = 0 := by omega
        subst hz
        simp [pow_succ, pow_zero] at hlt
        omega
      have hdiv : n / 10 < 10 ^ fuel := by
        rw [pow_succ] at hlt
        exact (Nat.div_lt_iff_lt_mul (by norm_num)).mpr hlt
      have h10 : n / 10 ≠ 0 := by omega
      have ihead := natToDigitsAux_head_ne_zero fuel (n / 10) hdiv hfuel h10
      obtain ⟨hne, _, _⟩ := natToDigitsAux_spec fuel (n / 10) hdiv hfuel
      simp only [natToDigitsAux, if_neg h]
      rw [natToDigitsAux_append]
      cases he : natToDigitsAux fuel (n / 10) [] with
      | nil => exact absurd he hne
      | cons x xs =>
        rw [he, List.head?_cons] at ihead
        simpa using ihead

theorem lt_ten_pow_succ (n : Nat) : n < 10 ^ (n + 1) :=
  lt_of_lt_of_le (Nat.lt_pow_self (by norm_num) n)
    (Nat.pow_le_pow_right (by norm_num) (Nat.le_succ n))

theorem natToDigits_ne_nil (n : Nat) : natToDigits n ≠ [] :=
  (natToDigitsAux_spec (n + 1) n (lt_ten_pow_succ n) (by omega)).1

theorem natToDigits_all_digits (n : Nat) : ∀ c ∈ natToDigits n, c.isDigit = true :=
  (natToDigitsAux_spec (n + 1) n (lt_ten_pow_succ n) (by omega)).2.1

theorem digitsToNat_natToDigits (n : Nat) : digitsToNat (natToDigits n) = n :=
  (natToDigitsAux_spec (n + 1) n (lt_ten_pow_succ n) (by omega)).2.2

theorem natToDigits_head_ne_zero {n : Nat} (h : n ≠ 0) :
    (natToDigits n).head? ≠ some '0' :=
  natToDigitsAux_head_ne_zero (n + 1) n (lt_ten_pow_succ n) (by omega) h

theorem natToDigits_zero : natToDigits 0 = ['0'] := rfl

/-! Lemmas about the digit-boundary split of an encoded coin and
inversion of a successful decode. -/

theorem takeWhile_digits_append (a : Nat) (d : List Char)
    (hd : beginsWithAsciiDigit d = false) :
    (natToDigits a ++ d).takeWhile Char.isDigit = natToDigits a := by
  rw [List.takeWhile_append_of_pos (natToDigits_all_digits a)]
  cases d with
  | nil => simp
  | cons c t =>
    simp only [beginsWithAsciiDigit] at hd
    simp [List.takeWhile_cons, hd]

theorem dropWhile_digits_append (a : Nat) (d : List Char)
    (hd : beginsWithAsciiDigit d = false) :
    (natToDigits a ++ d).dropWhile Char.isDigit = d := by
  rw [List.dropWhile_append_of_pos (natToDigits_all_digits a)]
  cases d with
  | nil => simp
  | cons c t =>
    simp only [beginsWithAsciiDigit] at hd
    simp [List.dropWhile_cons, hd]

theorem from_str_encode_ok (a : Nat) (d : List Char) (ha : a < 2 ^ 128)
    (hne : d ≠ []) (hd : beginsWithAsciiDigit d = false) :
    from_str (encode { denom := d, amount := a }) =
      Except.ok { denom := d, amount := a } := by
  simp only [from_str, encode, takeWhile_digits_append a d hd,
    dropWhile_digits_append a d hd, isEmpty_false_of_ne_nil hne,
    isEmpty_false_of_ne_nil (natToDigits_ne_nil a), Bool.false_eq_true,
    if_false, parseU128, digitsToNat_natToDigits, if_pos ha]

theorem from_str_ok_inv (s : List Char) (c : Coin)
    (h : from_str s = Except.ok c) :
    c.denom = s.dropWhile Char.isDigit ∧
    c.amount = digitsToNat (s.takeWhile Char.isDigit) ∧
    c.amount < 2 ^ 128 ∧
    s.dropWhile Char.isDigit ≠ [] ∧ s.takeWhile Char.isDigit ≠ [] := by
  by_cases h1 : s.dropWhile Char.isDigit = []
  · rw [from_str] at h
    simp [isEmpty_false_of_ne_nil, h1] at h
  · by_cases h2 : s.takeWhile Char.isDigit = []
    · rw [from_str] at h
      simp [isEmpty_false_of_ne_nil h1, h2] at h
    · by_cases h3 : digitsToNat (s.takeWhile Char.isDigit) < 2 ^ 128
      · rw [from_str] at h
        simp only [parseU128, isEmpty_false_of_ne_nil h1,
          isEmpty_false_of_ne_nil h2, Bool.false_eq_true, if_false,
          if_pos h3, Except.ok.injEq] at h
        subst h
        exact ⟨rfl, rfl, h3, h1, h2⟩
      · rw [from_str] at h
        rw [show (2 : Nat) ^ 128 = 340282366920938463463374607431768211456 from by
          norm_num] at h3
        simp [parseU128, isEmpty_false_of_ne_nil h1,
          isEmpty_false_of_ne_nil h2, h3] at h

theorem beginsWithAsciiDigit_dropWhile (s : List Char) :
    beginsWithAsciiDigit (s.dropWhile Char.isDigit) = false := by
  induction s with
  | nil => rfl
  | cons c t ih =>
    by_cases h : c.isDigit
    · rw [List.dropWhile_cons_of_pos h]
      exact ih
    · rw [List.dropWhile_cons_of_neg h]
      simp only [beginsWithAsciiDigit]
      exact Bool.not_eq_true _ ▸ by simpa using h

/-- Closed-form case analysis of `from_str`: the three error shapes and
the success shape, driven by the digit-boundary split. -/
theorem from_str_eq (s : List Char) :
    from_str s =
      if s.dropWhile Char.isDigit = [] then
        Except.error CoinFromStrError.MissingDenom
      else if s.takeWhile Char.isDigit = [] then
        Except.error CoinFromStrError.MissingAmount
      else if digitsToNat (s.takeWhile Char.isDigit) < 2 ^ 128 then
        Except.ok
          { denom := s.dropWhile Char.isDigit,
            amount := digitsToNat (s.takeWhile Char.isDigit) }
      else Except.error (CoinFromStrError.InvalidAmount overflowMsg) := by
  by_cases h1 : s.dropWhile Char.isDigit = []
  · simp [from_str, h1]
  · by_cases h2 : s.takeWhile Char.isDigit = []
    · simp [from_str, isEmpty_false_of_ne_nil h1, h1, h2]
    · by_cases h3 : digitsToNat (s.takeWhile Char.isDigit) < 2 ^ 128
      · rw [show (2 : Nat) ^ 128 = 340282366920938463463374607431768211456 from by
          norm_num] at h3
        simp [from_str, parseU128, isEmpty_false_of_ne_nil h1,
          isEmpty_false_of_ne_nil h2, h1, h2, h3]
      · rw [show (2 : Nat) ^ 128 = 340282366920938463463374607431768211456 from by
          norm_num] at h3
        simp [from_str, parseU128, isEmpty_false_of_ne_nil h1,
          isEmpty_false_of_ne_nil h2, h1, h2, h3]

theorem take_firstNonDigitPos : ∀ s : List Char,
    s.take (firstNonDigitPos s) = s.takeWhile Char.isDigit
  | [] => rfl
  | c :: t => by
    by_cases h : c.isDigit
    · simp only [firstNonDigitPos, List.takeWhile_cons_of_pos h, List.length_cons,
        List.take_succ_cons, List.cons.injEq, true_and]
      exact take_firstNonDigitPos t
    · simp [firstNonDigitPos, List.takeWhile_cons_of_neg h]

theorem drop_firstNonDigitPos : ∀ s : List Char,
    s.drop (firstNonDigitPos s) = s.dropWhile Char.isDigit
  | [] => rfl
  | c :: t => by
    by_cases h : c.isDigit
    · simp only [firstNonDigitPos, List.takeWhile_cons_of_pos h,
        List.dropWhile_cons_of_pos h, List.length_cons, List.drop_succ_cons]
      exact drop_firstNonDigitPos t
    · simp [firstNonDigitPos, List.takeWhile_cons_of_neg h,
        List.dropWhile_cons_of_neg h]

/-! Claim theorems. -/

/-- C1 (counterexample): the claim as stated fails for the empty denom,
which does not begin with an ASCII digit: encoding `Coin{amount: 5,
denom: ""}` gives the digit-only string whose decoding fails with
`MissingDenom` instead of reproducing the coin. -/
theorem C1_roundtrip_counterexample :
    (5 : Nat) < 2 ^ 128 ∧ beginsWithAsciiDigit [] = false ∧
    from_str (encode { denom := [], amount := 5 }) ≠
      Except.ok { denom := [], amount := 5 } := by
  decide

/-- C1 (amended): for every amount in the 128-bit range and every
non-empty denom whose first character is not an ASCII digit, decoding the
encoding reproduces the coin exactly. -/
theorem C1_roundtrip_amended (a : Nat) (d : List Char) (ha : a < 2 ^ 128)
    (hne : d ≠ []) (hd : beginsWithAsciiDigit d = false) :
    from_str (encode { denom := d, amount := a }) =
      Except.ok { denom := d, amount := a } :=
  from_str_encode_ok a d ha hne hd

/-- C1 (witness): the amended round trip at amount 123 and denom
`ucosm`. -/
theorem C1_roundtrip_witness :
    from_str (encode { denom := ("ucosm".data), amount := 123 }) =
      Except.ok { denom := ("ucosm".data), amount := 123 } :=
  C1_roundtrip_amended 123 ("ucosm".data) (by norm_num) (by decide) (by decide)

/-- C2: for every string whose first character is an ASCII digit and
which contains at least one non-digit character, if the decimal value of
the run before the first non-digit position fits in 128 bits then
decoding succeeds and returns that value as amount (leading zeros
ignored by positional evaluation) and the rest of the string verbatim as
denom. -/
theorem C2_decode_success (s : List Char)
    (h1 : beginsWithAsciiDigit s = true)
    (h2 : ∃ c ∈ s, c.isDigit = false)
    (h3 : digitsToNat (s.take (firstNonDigitPos s)) ≤ 2 ^ 128 - 1) :
    from_str s = Except.ok
      { denom := s.drop (firstNonDigitPos s),
        amount := digitsToNat (s.take (firstNonDigitPos s)) } := by
  rw [take_firstNonDigitPos] at h3
  rw [take_firstNonDigitPos, drop_firstNonDigitPos]
  have hdw : s.dropWhile Char.isDigit ≠ [] := by
    intro hnil
    obtain ⟨c, hc, hcd⟩ := h2
    have hcdig := List.dropWhile_eq_nil_iff.mp hnil c hc
    rw [hcdig] at hcd
    cases hcd
  have htw : s.takeWhile Char.isDigit ≠ [] := by
    cases s with
    | nil => cases h1
    | cons c t =>
      simp only [beginsWithAsciiDigit] at h1
      simp [List.takeWhile_cons_of_pos h1]
  have hlt : digitsToNat (s.takeWhile Char.isDigit) < 2 ^ 128 := by
    rw [show (2 : Nat) ^ 128 = 340282366920938463463374607431768211456 from by
      norm_num] at h3 ⊢
    omega
  rw [from_str_eq, if_neg hdw, if_neg htw, if_pos hlt]

/-- C2 (witness): decoding the concrete string of digits 1,2,3 followed
by `ucosm`. -/
theorem C2_decode_success_witness :
    from_str ("123ucosm".data) = Except.ok
      { denom := ("123ucosm".data).drop (firstNonDigitPos ("123ucosm".data)),
        amount := digitsToNat (("123ucosm".data).take
          (firstNonDigitPos ("123ucosm".data))) } :=
  C2_decode_success ("123ucosm".data) (by decide)
    ⟨'u', by decide, by decide⟩ (by decide)

/-- C4: decoding fails with `MissingDenom` iff the input contains no
non-ASCII-digit character, i.e. iff it is empty or consists entirely of
ASCII decimal digits. -/
theorem C4_missing_denom_iff (s : List Char) :
    from_str s = Except.error CoinFromStrError.MissingDenom ↔
      ∀ c ∈ s, c.isDigit = true := by
  rw [from_str_eq]
  by_cases h1 : s.dropWhile Char.isDigit = []
  · rw [if_pos h1]
    exact iff_of_true rfl (List.dropWhile_eq_nil_iff.mp h1)
  · have hno : ¬ ∀ c ∈ s, c.isDigit = true := fun hall =>
      h1 (List.dropWhile_eq_nil_iff.mpr hall)
    rw [if_neg h1]
    by_cases h2 : s.takeWhile Char.isDigit = []
    · rw [if_pos h2]
      refine iff_of_false (fun hx => ?_) hno
      injection hx with hkind
      exact CoinFromStrError.noConfusion hkind
    · rw [if_neg h2]
      refine iff_of_false ?_ hno
      by_cases h3 : digitsToNat (s.takeWhile Char.isDigit) < 2 ^ 128
      · rw [if_pos h3]
        exact fun hx => Except.noConfusion hx
      · rw [if_neg h3]
        intro hx
        injection hx with hkind
        exact CoinFromStrError.noConfusion hkind

/-- C5: decoding fails with `MissingAmount` iff the input is non-empty
and its first character is not an ASCII decimal digit (covering minus
signs, whitespace and every other non-digit first character). -/
theorem C5_missing_amount_iff (s : List Char) :
    from_str s = Except.error CoinFromStrError.MissingAmount ↔
      s ≠ [] ∧ beginsWithAsciiDigit s = false := by
  cases s with
  | nil => simp [from_str_eq]
  | cons c t =>
    rw [from_str_eq]
    by_cases hc : c.isDigit
    · have htw : (c :: t).takeWhile Char.isDigit ≠ [] := by
        simp [List.takeWhile_cons_of_pos hc]
      have hbw : ¬(c :: t ≠ [] ∧ beginsWithAsciiDigit (c :: t) = false) := by
        intro hcontra
        rw [show beginsWithAsciiDigit (c :: t) = c.isDigit from rfl, hc] at hcontra
        exact absurd hcontra.2 (by decide)
      refine iff_of_false ?_ hbw
      by_cases h1 : (c :: t).dropWhile Char.isDigit = []
      · rw [if_pos h1]
        intro hx
        injection hx with hkind
        exact CoinFromStrError.noConfusion hkind
      · rw [if_neg h1, if_neg htw]
        by_cases h3 : digitsToNat ((c :: t).takeWhile Char.isDigit) < 2 ^ 128
        · rw [if_pos h3]
          exact fun hx => Except.noConfusion hx
        · rw [if_neg h3]
          intro hx
          injection hx with hkind
          exact CoinFromStrError.noConfusion hkind
    · have h1 : (c :: t).dropWhile Char.isDigit = c :: t :=
        List.dropWhile_cons_of_neg hc
      have htw : (c :: t).takeWhile Char.isDigit = [] :=
        List.takeWhile_cons_of_neg hc
      simp [h1, htw, beginsWithAsciiDigit, hc]

/-- C6: when the leading digit run is non-empty, a non-digit character
follows it, and the run's decimal value exceeds the 128-bit range,
decoding fails with the numeric-conversion overflow error, a kind
distinct from `MissingAmount` and `MissingDenom`. -/
theorem C6_overflow (s : List Char)
    (h1 : s.takeWhile Char.isDigit ≠ [])
    (h2 : s.dropWhile Char.isDigit ≠ [])
    (h3 : 2 ^ 128 - 1 < digitsToNat (s.takeWhile Char.isDigit)) :
    from_str s = Except.error (CoinFromStrError.InvalidAmount overflowMsg) ∧
    (∀ m, CoinFromStrError.InvalidAmount m ≠ CoinFromStrError.MissingAmount ∧
      CoinFromStrError.InvalidAmount m ≠ CoinFromStrError.MissingDenom) := by
  refine ⟨?_, fun m => ⟨fun h => CoinFromStrError.noConfusion h,
    fun h => CoinFromStrError.noConfusion h⟩⟩
  have h3l : ¬ digitsToNat (s.takeWhile Char.isDigit) < 2 ^ 128 := by
    rw [show (2 : Nat) ^ 128 = 340282366920938463463374607431768211456 from by
      norm_num] at h3 ⊢
    omega
  rw [from_str_eq, if_neg h2, if_neg h1, if_neg h3l]

/-- C6 (witness): the decimal value of the 39-digit run in the concrete
input equals 2 to the 128th power, which exceeds the range. -/
theorem C6_overflow_witness :
    from_str ("340282366920938463463374607431768211456ucosm".data) =
      Except.error (CoinFromStrError.InvalidAmount overflowMsg) ∧
    (∀ m, CoinFromStrError.InvalidAmount m ≠ CoinFromStrError.MissingAmount ∧
      CoinFromStrError.InvalidAmount m ≠ CoinFromStrError.MissingDenom) :=
  C6_overflow ("340282366920938463463374607431768211456ucosm".data)
    (by decide) (by decide) (by decide)

/-- C7: the canonical encoding of any coin is the decimal representation
of the amount (all ASCII digits, positional value equal to the amount,
non-empty, no leading zero except for the single digit 0 itself, hence no
sign and no separator) immediately concatenated with the denom; encoding
is a total function and never fails. -/
theorem C7_encode_postcondition (c : Coin) :
    encode c = natToDigits c.amount ++ c.denom ∧
    natToDigits c.amount ≠ [] ∧
    (∀ ch ∈ natToDigits c.amount, ch.isDigit = true) ∧
    digitsToNat (natToDigits c.amount) = c.amount ∧
    (natToDigits c.amount = ['0'] ∨ (natToDigits c.amount).head? ≠ some '0') := by
  refine ⟨rfl, natToDigits_ne_nil _, natToDigits_all_digits _,
    digitsToNat_natToDigits _, ?_⟩
  by_cases h : c.amount = 0
  · left
    rw [h]
    exact natToDigits_zero
  · right
    exact natToDigits_head_ne_zero h

/-- C8: whenever decoding succeeds, the denom of the returned coin is
non-empty. -/
theorem C8_denom_nonempty (s : List Char) (c : Coin)
    (h : from_str s = Except.ok c) : c.denom ≠ [] := by
  obtain ⟨hd, _, _, hdw, _⟩ := from_str_ok_inv s c h
  rw [hd]
  exact hdw

/-- C8 (witness): a successful concrete decode whose denom is
non-empty. -/
theorem C8_denom_nonempty_witness :
    from_str ("123ucosm".data) =
      Except.ok { denom := ("ucosm".data), amount := 123 } ∧
    ({ denom := ("ucosm".data), amount := 123 } : Coin).denom ≠ [] :=
  ⟨by decide, C8_denom_nonempty ("123ucosm".data) _ (by decide)⟩

/-- C9: whenever decoding succeeds, the returned coin's denom does not
begin with an ASCII digit, and decoding the encoding of that coin yields
the coin again. -/
theorem C9_denom_shape_and_reparse (s : List Char) (c : Coin)
    (h : from_str s = Except.ok c) :
    beginsWithAsciiDigit c.denom = false ∧
      from_str (encode c) = Except.ok c := by
  obtain ⟨hd, ha, hlt, hdw, htw⟩ := from_str_ok_inv s c h
  have hb : beginsWithAsciiDigit c.denom = false := by
    rw [hd]
    exact beginsWithAsciiDigit_dropWhile s
  have hne : c.denom ≠ [] := by
    rw [hd]
    exact hdw
  exact ⟨hb, from_str_encode_ok c.amount c.denom hlt hne hb⟩

/-- C9 (witness): the coin decoded from a concrete input with leading
zeros has a digit-free-leading denom and re-decodes from its encoding. -/
theorem C9_denom_shape_and_reparse_witness :
    beginsWithAsciiDigit ({ denom := ("ucosm".data), amount := 123 } : Coin).denom
        = false ∧
      from_str (encode { denom := ("ucosm".data), amount := 123 }) =
        Except.ok { denom := ("ucosm".data), amount := 123 } :=
  C9_denom_shape_and_reparse ("00123ucosm".data) _ (by decide)

/-- C10: a coin whose denom begins with an ASCII digit round-trips to a
different coin: amount 12 with denom beginning with the digit 3 encodes
to the digits 1,2,3 followed by `ucosm`, which decodes successfully to
amount 123 with denom `ucosm`. -/
theorem C10_digit_denom_breaks_roundtrip :
    beginsWithAsciiDigit ("3ucosm".data) = true ∧
    from_str (encode { denom := ("3ucosm".data), amount := 12 }) =
      Except.ok { denom := ("ucosm".data), amount := 123 } ∧
    ({ denom := ("ucosm".data), amount := 123 } : Coin) ≠
      { denom := ("3ucosm".data), amount := 12 } := by
  decide

/-- C3: `has_coins` returns true iff some entry matches the required
denom, the entry is the first such match (every earlier entry has a
different denom), and its amount is at least the required amount; with no
entry of that denom the result is false, and entries after the first
match are ignored (the characterization constrains only the first
match). -/
theorem has_coins_cons_pos {c required : Coin} (cs : List Coin)
    (h : c.denom = required.denom) :
    has_coins (c :: cs) required = decide (required.amount ≤ c.amount) := by
  simp [has_coins, List.find?_cons, h]

theorem has_coins_cons_neg {c required : Coin} (cs : List Coin)
    (h : c.denom ≠ required.denom) :
    has_coins (c :: cs) required = has_coins cs required := by
  have hb : (c.denom == required.denom) = false := by simpa using h
  simp [has_coins, List.find?_cons, hb]

theorem C3_has_coins_first_match (coins : List Coin) (required : Coin) :
    has_coins coins required = true ↔
      ∃ (i : Nat) (ci : Coin), coins[i]? = some ci ∧
        ci.denom = required.denom ∧
        required.amount ≤ ci.amount ∧
        ∀ (j : Nat), j < i → ∀ (cj : Coin),
          coins[j]? = some cj → cj.denom ≠ required.denom := by
  induction coins with
  | nil => simp [has_coins]
  | cons c cs ih =>
    by_cases hd : c.denom = required.denom
    · rw [has_coins_cons_pos cs hd]
      constructor
      · intro h
        refine ⟨0, c, by simp, hd, by simpa using h, ?_⟩
        intro j hj cj hgj
        omega
      · rintro ⟨i, ci, hget, hdi, hai, hfirst⟩
        cases i with
        | zero =>
          simp only [List.getElem?_cons_zero, Option.some.injEq] at hget
          subst hget
          simpa using hai
        | succ k =>
          exact absurd hd (hfirst 0 (Nat.succ_pos k) c (by simp))
    · rw [has_coins_cons_neg cs hd, ih]
      constructor
      · rintro ⟨i, ci, hget, h1, h2, hfirst⟩
        refine ⟨i + 1, ci, by simpa using hget, h1, h2, ?_⟩
        intro j hj cj hgj
        cases j with
        | zero =>
          simp only [List.getElem?_cons_zero, Option.some.injEq] at hgj
          subst hgj
          exact hd
        | succ k =>
          exact hfirst k (by omega) cj (by simpa using hgj)
      · rintro ⟨i, ci, hget, h1, h2, hfirst⟩
        cases i with
        | zero =>
          simp only [List.getElem?_cons_zero, Option.some.injEq] at hget
          subst hget
          exact absurd h1 hd
        | succ k =>
          refine ⟨k, ci, by simpa using hget, h1, h2, ?_⟩
          intro j hj cj hgj
          exact hfirst (j + 1) (by omega) cj (by simpa using hgj)

end CoinSpec
